import Mathlib

/-!
Verification of the comment-stripping engine of `comment-stripper-mcp`
(`src/utils/commentStripper` — the regex-based comment stripper).

Source text is modelled as `List Char`. Each regex in `REGEX_CACHE` is a
deterministic pattern (its lazy quantifiers have alternatives that are
disjoint from the closing delimiter), so every pattern is embedded as a
scanner `Char → List Char → Option Nat` that, positioned at a head
character, returns `some n` when the regex matches there, `n` being the
number of characters consumed from the tail (total match length `n + 1`).
Global `String.replace` / the `exec` loop of `replaceLiterals` are embedded
as a left-to-right scan applying the matcher at every position and skipping
the matched span.
-/

set_option maxRecDepth 10000

abbrev Str := List Char

/-- The backtick character (a JS template-literal delimiter). -/
def btick : Char := Char.ofNat 96

/-- JS line terminators: the characters that `.` does not match and that a
multiline `$` anchors before (`\n`, `\r`, U+2028, U+2029). -/
def isLineTerm (c : Char) : Bool :=
  c = '\n' || c = '\r' || c = Char.ofNat 0x2028 || c = Char.ofNat 0x2029

/-- The JS `\s` whitespace class (ECMAScript WhiteSpace ∪ LineTerminator). -/
def isJsSpace (c : Char) : Bool :=
  c = ' ' || c = '\t' || c = '\n' || c = '\r' || c = '\x0b' || c = '\x0c' ||
  c = Char.ofNat 0xa0 || c = Char.ofNat 0x1680 ||
  (Char.ofNat 0x2000 ≤ c && c ≤ Char.ofNat 0x200a) ||
  c = Char.ofNat 0x2028 || c = Char.ofNat 0x2029 ||
  c = Char.ofNat 0x202f || c = Char.ofNat 0x205f ||
  c = Char.ofNat 0x3000 || c = Char.ofNat 0xfeff

/-- The JS `\w` word class `[A-Za-z0-9_]`. -/
def isWordCh (c : Char) : Bool :=
  ('a' ≤ c && c ≤ 'z') || ('A' ≤ c && c ≤ 'Z') || ('0' ≤ c && c ≤ '9') || c = '_'

/-- Class `[A-Z]`. -/
def isUpperCh (c : Char) : Bool := 'A' ≤ c && c ≤ 'Z'

/-- Class `\d`. -/
def isDigitCh (c : Char) : Bool := '0' ≤ c && c ≤ '9'

/-- Body of the string-literal pattern `(['<backtick>"])((?!\1)[^\\]|\\[\s\S])*?\1`
after the opening quote `q`: lazily consume units (any char other than `q`
and `\`, or `\` followed by any char) up to and including the closing `q`.
Returns the number of characters consumed. -/
def strLitEnd (q : Char) : Str → Option Nat
  | [] => none
  | c :: cs =>
    if c = q then some 1
    else if c = '\\' then
      match cs with
      | [] => none
      | _ :: ds => (strLitEnd q ds).map (· + 2)
    else (strLitEnd q cs).map (· + 1)

/-- Source pattern `REGEX_CACHE.js.stringLiteral`: a quote (`'`, backtick or `"`) opens a
string literal closed by the same unescaped quote. -/
def matchJsStr (c : Char) (cs : Str) : Option Nat :=
  if c = '\'' || c = '"' || c = btick then strLitEnd c cs else none

/-- Source pattern `REGEX_CACHE.py.stringLiteral` (also Ruby's and PHP's): like the JS one
but only `'` and `"` quotes. -/
def matchPyStr (c : Char) (cs : Str) : Option Nat :=
  if c = '\'' || c = '"' then strLitEnd c cs else none

/-- Source pattern `REGEX_CACHE.js.regexLiteral = /\/(?:[^\\*\/\n]|\\[\s\S])+?\/(?:[gimuy]+)?/`:
after the opening `/` and at least one unit, lazily close at the next `/`.
This scans units after the first one. -/
def reEnd : Str → Option Nat
  | [] => none
  | c :: cs =>
    if c = '/' then some 1
    else if c = '\\' then
      match cs with
      | [] => none
      | _ :: ds => (reEnd ds).map (· + 2)
    else if c = '*' || c = '\n' then none
    else (reEnd cs).map (· + 1)

/-- The mandatory first unit of the regex-literal body (`+?` needs one unit
before the closing `/` may match). -/
def reFirst : Str → Option Nat
  | [] => none
  | c :: cs =>
    if c = '\\' then
      match cs with
      | [] => none
      | _ :: ds => (reEnd ds).map (· + 2)
    else if c = '/' || c = '*' || c = '\n' then none
    else (reEnd cs).map (· + 1)

/-- Trailing regex flags `(?:[gimuy]+)?`, matched greedily. -/
def flagsLen : Str → Nat
  | [] => 0
  | c :: cs =>
    if c = 'g' || c = 'i' || c = 'm' || c = 'u' || c = 'y' then flagsLen cs + 1
    else 0

/-- Source pattern `REGEX_CACHE.js.regexLiteral` as a positioned matcher. -/
def matchJsRegex (c : Char) (cs : Str) : Option Nat :=
  if c = '/' then (reFirst cs).map (fun n => n + flagsLen (cs.drop n)) else none

/-- Lazy scan of `[\s\S]*?\*\//`: consume up to and including the first `*/`. -/
def blockEnd : Str → Option Nat
  | '*' :: '/' :: _ => some 2
  | _ :: cs => (blockEnd cs).map (· + 1)
  | [] => none

/-- Source pattern `REGEX_CACHE.js.multiLineComment = /\/\*[\s\S]*?\*\//` (also
`REGEX_CACHE.css.comment` and PHP's multi-line pattern). -/
def matchBlockComment (c : Char) (cs : Str) : Option Nat :=
  if c = '/' then
    match cs with
    | '*' :: ds => (blockEnd ds).map (· + 1 + 1)
    | _ => none
  else none

/-- Source pattern `REGEX_CACHE.js.singleLineComment = /\/\/.*$/gm`: `//` then greedily to
the end of the line (multiline `$`). -/
def matchJsLine (c : Char) (cs : Str) : Option Nat :=
  if c = '/' then
    match cs with
    | '/' :: ds => some (1 + (ds.takeWhile (fun d => !isLineTerm d)).length)
    | _ => none
  else none

/-- Source pattern `REGEX_CACHE.py.singleLineComment = /#.*$/gm` (also Ruby's). -/
def matchPyLine (c : Char) (cs : Str) : Option Nat :=
  if c = '#' then some (cs.takeWhile (fun d => !isLineTerm d)).length else none

/-- Source pattern `REGEX_CACHE.php.singleLineComment = /(?:\/\/|#).*$/gm`. -/
def matchPhpLine (c : Char) (cs : Str) : Option Nat :=
  if c = '#' then some (cs.takeWhile (fun d => !isLineTerm d)).length
  else if c = '/' then
    match cs with
    | '/' :: ds => some (1 + (ds.takeWhile (fun d => !isLineTerm d)).length)
    | _ => none
  else none

/-- Lazy scan up to and including the first `-->`. -/
def htmlEnd : Str → Option Nat
  | '-' :: '-' :: '>' :: _ => some 3
  | _ :: cs => (htmlEnd cs).map (· + 1)
  | [] => none

/-- Source pattern `REGEX_CACHE.html.comment = /<!--[\s\S]*?-->/`. -/
def matchHtmlComment (c : Char) (cs : Str) : Option Nat :=
  if c = '<' then
    match cs with
    | '!' :: '-' :: '-' :: ds => (htmlEnd ds).map (· + 3)
    | _ => none
  else none

/-- Lazy scan up to and including the first `=end`. -/
def rubyMlEnd : Str → Option Nat
  | '=' :: 'e' :: 'n' :: 'd' :: _ => some 4
  | _ :: cs => (rubyMlEnd cs).map (· + 1)
  | [] => none

/-- Source pattern `REGEX_CACHE.ruby.multiLineComment = /=begin\s[\s\S]*?=end/`. -/
def matchRubyMl (c : Char) (cs : Str) : Option Nat :=
  if c = '=' then
    match cs with
    | 'b' :: 'e' :: 'g' :: 'i' :: 'n' :: w :: ds =>
      if isJsSpace w then (rubyMlEnd ds).map (· + 6) else none
    | _ => none
  else none

/-- Component `\s*\w+` (both greedy; `\s` and `\w` are disjoint so this is the unique
match): maximal whitespace run then at least one word character. -/
def wsWord (s : Str) : Option Nat :=
  let a := (s.takeWhile isJsSpace).length
  let b := ((s.drop a).takeWhile isWordCh).length
  if b = 0 then none else some (a + b)

/-- Second lazy component `.*?\n` of the heredoc pattern followed by
`\s*\w+` (dot-all, so the minimal `\n` making the continuation succeed). -/
def hdScan2 : Str → Option Nat
  | [] => none
  | c :: cs =>
    if c = '\n' then
      match wsWord cs with
      | some k => some (1 + k)
      | none => (hdScan2 cs).map (· + 1)
    else (hdScan2 cs).map (· + 1)

/-- First lazy component `.*?\n` of the heredoc pattern: the first `\n`
(a later first newline can never succeed where the earliest one fails,
since the second dot-all component absorbs the difference). -/
def hdScan1 : Str → Option Nat
  | [] => none
  | c :: cs =>
    if c = '\n' then (hdScan2 cs).map (· + 1) else (hdScan1 cs).map (· + 1)

/-- Heredoc opening tag `[-~]?(['"]?)\w+\1` (after the `<<`). The optional
quote is captured and must be closed by the same quote; backtracking into
the empty-quote alternative always fails because a quote is not a word
character. -/
def hdTag (s : Str) : Option Nat :=
  let d : Nat := match s with
    | c :: _ => if c = '-' || c = '~' then 1 else 0
    | [] => 0
  let s1 := s.drop d
  match s1 with
  | q :: cs =>
    if q = '\'' || q = '"' then
      let w := (cs.takeWhile isWordCh).length
      if w = 0 then none
      else match cs.drop w with
        | q2 :: _ => if q2 = q then some (d + 1 + w + 1) else none
        | [] => none
    else
      let w := (s1.takeWhile isWordCh).length
      if w = 0 then none else some (d + w)
  | [] => none

/-- Source pattern `REGEX_CACHE.ruby.heredoc = /<<[-~]?(['"]?)\w+\1.*?\n.*?\n\s*\w+/gs`. -/
def matchHeredoc (c : Char) (cs : Str) : Option Nat :=
  if c = '<' then
    match cs with
    | '<' :: rest =>
      match hdTag rest with
      | some t =>
        match hdScan1 (rest.drop t) with
        | some k => some (1 + t + k)
        | none => none
      | none => none
    | _ => none
  else none

/-- The placeholder-shape pattern of `restoreLiterals`:
`/__[A-Z]+_\d+__/` (all runs greedy; the classes are disjoint from `_`,
so the match is deterministic). -/
def phMatch (c : Char) (cs : Str) : Option Nat :=
  if c = '_' then
    match cs with
    | '_' :: rest =>
      let a := (rest.takeWhile isUpperCh).length
      if a = 0 then none
      else match rest.drop a with
        | '_' :: rest2 =>
          let b := (rest2.takeWhile isDigitCh).length
          if b = 0 then none
          else match rest2.drop b with
            | '_' :: '_' :: _ => some (1 + a + 1 + b + 2)
            | _ => none
        | _ => none
    | _ => none
  else none

/-! ## The literal map (a JS `Map` from placeholder to literal text) -/

abbrev LitMap := List (Str × Str)

/-- JS `Map.get`. -/
def mget {α : Type} (m : List (Str × α)) (k : Str) : Option α :=
  (m.find? (fun p => p.1 == k)).map (·.2)

/-- JS `Map.set`: overwrite in place if the key exists, else append. -/
def mset {α : Type} (m : List (Str × α)) (k : Str) (v : α) : List (Str × α) :=
  if m.any (fun p => p.1 == k) then
    m.map (fun p => if p.1 == k then (p.1, v) else p)
  else m ++ [(k, v)]

/-- Decimal rendering, by structural recursion on a fuel bound (any fuel
greater than `n` is enough, since `n / 10 < n` strictly for `n ≥ 10`). -/
def natCharsGo : Nat → Nat → Str
  | 0, _ => []
  | fuel + 1, n =>
    if n < 10 then [Char.ofNat (48 + n)]
    else natCharsGo fuel (n / 10) ++ [Char.ofNat (48 + n % 10)]

/-- Decimal rendering of a natural number (JS `${n}`). -/
def natChars (n : Nat) : Str := natCharsGo (n + 1) n

/-- The placeholder `__${pfx}_${n}__` built by `replaceLiterals`. -/
def mkPh (pfx : Str) (n : Nat) : Str :=
  '_' :: '_' :: (pfx ++ '_' :: (natChars n ++ ['_', '_']))

/-- The scan of `replaceLiterals`, by structural recursion on a fuel bound:
every step consumes at least one character, so fuel `s.length` is enough
and larger fuels agree. -/
def replLitsGo (M : Char → Str → Option Nat) (pfx : Str) :
    Nat → Str → LitMap → Str × LitMap
  | 0, s, m => (s, m)
  | _ + 1, [], m => ([], m)
  | fuel + 1, c :: cs, m =>
    match M c cs with
    | some n =>
      let ph := mkPh pfx m.length
      let r := replLitsGo M pfx fuel (cs.drop n) (mset m ph (c :: cs.take n))
      (ph ++ r.1, r.2)
    | none =>
      let r := replLitsGo M pfx fuel cs m
      (c :: r.1, r.2)

/-- Source function `replaceLiterals(code, pattern, literalMap, prefix)`: scan left to
right; at each match replace the span with a fresh placeholder whose
ordinal is the current map size, and record the span in the map. -/
def replLits (M : Char → Str → Option Nat) (pfx : Str)
    (s : Str) (m : LitMap) : Str × LitMap :=
  replLitsGo M pfx s.length s m

/-- The scan of a global `String.replace`, by structural recursion on a
fuel bound (fuel `s.length` is enough; larger fuels agree). -/
def replaceEachGo (M : Char → Str → Option Nat) (f : Str → Str) :
    Nat → Str → Str
  | 0, s => s
  | _ + 1, [] => []
  | fuel + 1, c :: cs =>
    match M c cs with
    | some n => f (c :: cs.take n) ++ replaceEachGo M f fuel (cs.drop n)
    | none => c :: replaceEachGo M f fuel cs

/-- Global `String.replace(pattern, f)`: scan left to right, replacing each
non-overlapping leftmost match span by `f span`; replacements are not
rescanned. -/
def replaceEach (M : Char → Str → Option Nat) (f : Str → Str) (s : Str) : Str :=
  replaceEachGo M f s.length s

/-- Deletion pass `code.replace(pattern, '')`: delete every match. -/
def removeAll (M : Char → Str → Option Nat) : Str → Str :=
  replaceEach M (fun _ => [])

/-- Source function `restoreLiterals(code, literalMap)`: if the map is empty return the
code unchanged; otherwise one combined pass over the placeholder shape,
replacing each match by `literalMap.get(match) || match` (JS truthiness:
an empty-string value falls back to the match). -/
def restoreLiterals (code : Str) (m : LitMap) : Str :=
  if m.length = 0 then code
  else
    replaceEach phMatch
      (fun s =>
        match mget m s with
        | some v => if v = [] then s else v
        | none => s)
      code

/-! ## Per-language strip functions -/

/-- Source function `stripJsComments`: guard empty input, extract string literals then
regex literals, remove block then line comments, restore literals. -/
def stripJsComments (code : Str) : Str :=
  if code = [] then []
  else
    let s1 := replLits matchJsStr ("STR".data) code []
    let s2 := replLits matchJsRegex ("REGEX".data) s1.1 s1.2
    let p3 := removeAll matchBlockComment s2.1
    let p4 := removeAll matchJsLine p3
    restoreLiterals p4 s2.2

/-- Source function `stripHtmlComments`: a single `code.replace` with the HTML comment
pattern (no empty-input guard in the source). -/
def stripHtmlComments (code : Str) : Str :=
  removeAll matchHtmlComment code

/-- Source function `stripCssComments`: a single `code.replace` with the CSS block-comment
pattern (no empty-input guard in the source). -/
def stripCssComments (code : Str) : Str :=
  removeAll matchBlockComment code

/-- Source function `stripVueComments`: run `stripJsComments` first, then remove HTML
comments from its (already literal-restored) result. -/
def stripVueComments (code : Str) : Str :=
  removeAll matchHtmlComment (stripJsComments code)

/-- Source function `stripPythonComments`: guard, extract string literals, remove `#`
line comments, restore. -/
def stripPythonComments (code : Str) : Str :=
  if code = [] then []
  else
    let s1 := replLits matchPyStr ("STR".data) code []
    let p2 := removeAll matchPyLine s1.1
    restoreLiterals p2 s1.2

/-- Source function `stripCStyleComments` delegates to `stripJsComments`. -/
def stripCStyleComments (code : Str) : Str :=
  stripJsComments code

/-- Source function `stripRubyComments`: guard, extract string literals then heredocs,
remove `=begin/=end` then `#` comments, restore. -/
def stripRubyComments (code : Str) : Str :=
  if code = [] then []
  else
    let s1 := replLits matchPyStr ("STR".data) code []
    let s2 := replLits matchHeredoc ("HEREDOC".data) s1.1 s1.2
    let p3 := removeAll matchRubyMl s2.1
    let p4 := removeAll matchPyLine p3
    restoreLiterals p4 s2.2

/-- Source function `stripPhpComments`: guard, extract string literals, remove block then
line comments, restore. -/
def stripPhpComments (code : Str) : Str :=
  if code = [] then []
  else
    let s1 := replLits matchPyStr ("STR".data) code []
    let p2 := removeAll matchBlockComment s1.1
    let p3 := removeAll matchPhpLine p2
    restoreLiterals p3 s1.2

/-! ## Dispatcher (`stripCommentsByFileType`, `stripComments`) -/

/-- The per-language strip functions a dispatcher cache entry can hold. -/
inductive StripFn
  | js | vue | html | css | py | rb | php
deriving DecidableEq

/-- Apply a resolved strip function. -/
def StripFn.apply : StripFn → Str → Str
  | .js => stripJsComments
  | .vue => stripVueComments
  | .html => stripHtmlComments
  | .css => stripCssComments
  | .py => stripPythonComments
  | .rb => stripRubyComments
  | .php => stripPhpComments

/-- JS `String.prototype.split('.')`: split on every dot, keeping empty
components; the result is always non-empty. -/
def splitDot : Str → List Str
  | [] => [[]]
  | c :: cs =>
    if c = '.' then [] :: splitDot cs
    else
      match splitDot cs with
      | h :: t => (c :: h) :: t
      | [] => [[c]]

/-- JS `toLowerCase` (modelled characterwise; ASCII-faithful). -/
def toLowerStr (s : Str) : Str := s.map Char.toLower

/-- Extension extraction `filePath.split('.').pop()?.toLowerCase() || ''` (the `?.` and `|| ''`
only renormalise the empty string, since `split` never yields an empty
array). -/
def extOf (filePath : Str) : Str :=
  toLowerStr ((splitDot filePath).getLast?.getD [])

/-- The `switch (extension)` of `stripCommentsByFileType`. -/
def resolveFn (ext : Str) : StripFn :=
  if ext = ("js".data) ∨ ext = ("ts".data) ∨ ext = ("jsx".data) ∨
     ext = ("tsx".data) ∨ ext = ("java".data) ∨ ext = ("c".data) ∨
     ext = ("cpp".data) ∨ ext = ("cs".data) then .js
  else if ext = ("vue".data) then .vue
  else if ext = ("html".data) ∨ ext = ("htm".data) then .html
  else if ext = ("css".data) ∨ ext = ("scss".data) ∨ ext = ("less".data) then .css
  else if ext = ("py".data) then .py
  else if ext = ("rb".data) then .rb
  else if ext = ("php".data) then .php
  else .js

/-- The process-wide `FILE_TYPE_CACHE` (a JS `Map` from extension to
strip function). -/
abbrev FnCache := List (Str × StripFn)

/-- Source function `stripCommentsByFileType(filePath, code)` with the cache passed
explicitly: guard empty code, look the extension up in the cache, on a
miss resolve it via the `switch` and cache the resolution. -/
def stripCommentsByFileTypeC (cache : FnCache) (filePath code : Str) :
    Str × FnCache :=
  if code = [] then ([], cache)
  else
    let ext := extOf filePath
    match mget cache ext with
    | some fn => (fn.apply code, cache)
    | none => ((resolveFn ext).apply code, mset cache ext (resolveFn ext))

/-- Source function `stripComments(code, fileType)`: guard empty code; with a truthy
`fileType`, delegate to `stripCommentsByFileType` on the fake path
`file.<filetype-lowercased>`; otherwise default to `stripJsComments`. -/
def stripComments (code : Str) (fileType : Option Str) (cache : FnCache) :
    Str × FnCache :=
  if code = [] then ([], cache)
  else
    match fileType with
    | some ft =>
      if ft = [] then (stripJsComments code, cache)
      else stripCommentsByFileTypeC cache (("file.".data) ++ toLowerStr ft) code
    | none => (stripJsComments code, cache)

/-! ## Possibly-undefined arguments

A JS caller may pass `undefined` (modelled as `none`). The guarded
functions (`if (!code) return ''`) return the empty string; the unguarded
ones (`stripHtmlComments`, `stripCssComments`) immediately invoke
`code.replace`, which on `undefined` throws a `TypeError` (modelled as
`Except.error ()`). -/

/-- Wrapper: `stripJsComments` on a possibly-undefined argument (guarded). -/
def stripJsCommentsOpt : Option Str → Except Unit Str
  | none => .ok []
  | some c => .ok (stripJsComments c)

/-- Wrapper: `stripPythonComments` on a possibly-undefined argument (guarded). -/
def stripPythonCommentsOpt : Option Str → Except Unit Str
  | none => .ok []
  | some c => .ok (stripPythonComments c)

/-- Wrapper: `stripRubyComments` on a possibly-undefined argument (guarded). -/
def stripRubyCommentsOpt : Option Str → Except Unit Str
  | none => .ok []
  | some c => .ok (stripRubyComments c)

/-- Wrapper: `stripPhpComments` on a possibly-undefined argument (guarded). -/
def stripPhpCommentsOpt : Option Str → Except Unit Str
  | none => .ok []
  | some c => .ok (stripPhpComments c)

/-- Wrapper: `stripVueComments` on a possibly-undefined argument: unguarded, but its
first step `stripJsComments(code)` is guarded and returns `''`, so the
final `.replace` runs on `''` and succeeds. -/
def stripVueCommentsOpt : Option Str → Except Unit Str
  | none => .ok (removeAll matchHtmlComment [])
  | some c => .ok (stripVueComments c)

/-- Wrapper: `stripHtmlComments` on a possibly-undefined argument: no guard, and
`undefined.replace(...)` throws a `TypeError`. -/
def stripHtmlCommentsOpt : Option Str → Except Unit Str
  | none => .error ()
  | some c => .ok (stripHtmlComments c)

/-- Wrapper: `stripCssComments` on a possibly-undefined argument: no guard, and
`undefined.replace(...)` throws a `TypeError`. -/
def stripCssCommentsOpt : Option Str → Except Unit Str
  | none => .error ()
  | some c => .ok (stripCssComments c)

/-- Wrapper: `stripComments` on a possibly-undefined code argument (guarded). -/
def stripCommentsOpt (code : Option Str) (fileType : Option Str)
    (cache : FnCache) : Except Unit (Str × FnCache) :=
  match code with
  | none => .ok ([], cache)
  | some c => .ok (stripComments c fileType cache)

/-- Wrapper: `stripCommentsByFileType` on a possibly-undefined code argument
(guarded). -/
def stripCommentsByFileTypeOpt (cache : FnCache) (filePath : Str)
    (code : Option Str) : Except Unit (Str × FnCache) :=
  match code with
  | none => .ok ([], cache)
  | some c => .ok (stripCommentsByFileTypeC cache filePath c)

/-! ## Observation helpers (used to state the claims) -/

/-- Predicate `leads pat s`: `pat` is an initial segment of `s`. -/
def leads : Str → Str → Bool
  | [], _ => true
  | _ :: _, [] => false
  | a :: as, b :: bs => a = b && leads as bs

/-- Predicate `hasSub pat s`: `pat` occurs as a contiguous substring of `s`. -/
def hasSub (pat : Str) : Str → Bool
  | [] => leads pat []
  | c :: cs => leads pat (c :: cs) || hasSub pat cs

/-- Some position of `s` carries a match of `M`. -/
def existsMatch (M : Char → Str → Option Nat) : Str → Bool
  | [] => false
  | c :: cs => (M c cs).isSome || existsMatch M cs

/-- A placeholder-shaped token `__[A-Z]+_\d+__` occurs somewhere in `s`. -/
def containsShape (s : Str) : Bool :=
  existsMatch phMatch s

/-- Decimal digit value of a character. -/
def chVal (c : Char) : Nat := c.toNat - 48

/-- Parse a digit string back to a number (left fold). -/
def digitsVal (s : Str) : Nat := s.foldl (fun a c => a * 10 + chVal c) 0

/-- The cache invariant: every cached entry is the `switch` resolution of
its own key. Every reachable state of `FILE_TYPE_CACHE` satisfies this. -/
def CacheWf (cache : FnCache) : Prop :=
  ∀ p ∈ cache, p.2 = resolveFn p.1

/-- Invariant of the literal map during one stripping operation: keys are
pairwise distinct, and every key is a placeholder of one of the three
prefixes used by the engine whose ordinal is below the current map size. -/
def PhInv (m : LitMap) : Prop :=
  (m.map Prod.fst).Nodup ∧
  ∀ p ∈ m, ∃ pf n,
    (pf = ("STR").data ∨ pf = ("REGEX").data ∨ pf = ("HEREDOC").data) ∧
    n < m.length ∧ p.1 = mkPh pf n

/-! ## Scan unfolding lemmas

The fuel-indexed scans agree for every sufficient fuel, giving the
intended unfolding equations of `replaceEach` and `replLits`. -/

theorem replaceEachGo_congr (M : Char → Str → Option Nat) (f : Str → Str) :
    ∀ f1 f2 s, s.length ≤ f1 → s.length ≤ f2 →
      replaceEachGo M f f1 s = replaceEachGo M f f2 s := by
  intro f1
  induction f1 with
  | zero =>
    intro f2 s h1 _
    have hs : s = [] := List.length_eq_zero.mp (Nat.le_zero.mp h1)
    subst hs
    cases f2 <;> rfl
  | succ f1 ih =>
    intro f2 s h1 h2
    cases s with
    | nil => cases f2 <;> rfl
    | cons c cs =>
      cases f2 with
      | zero => simp at h2
      | succ f2 =>
        simp only [List.length_cons, Nat.add_le_add_iff_right] at h1 h2
        cases h : M c cs with
        | some n =>
          simp only [replaceEachGo, h]
          rw [ih f2 (cs.drop n)
            (le_trans (by simp) h1)
            (le_trans (by simp) h2)]
        | none =>
          simp only [replaceEachGo, h]
          rw [ih f2 cs h1 h2]

theorem replaceEach_nil (M : Char → Str → Option Nat) (f : Str → Str) :
    replaceEach M f [] = [] := rfl

theorem replaceEach_cons_some (M : Char → Str → Option Nat) (f : Str → Str)
    (c : Char) (cs : Str) (n : Nat) (h : M c cs = some n) :
    replaceEach M f (c :: cs) =
      f (c :: cs.take n) ++ replaceEach M f (cs.drop n) := by
  show replaceEachGo M f (c :: cs).length (c :: cs) = _
  simp only [List.length_cons, replaceEachGo, h]
  rw [replaceEachGo_congr M f cs.length (cs.drop n).length (cs.drop n)
    (by simp) le_rfl]
  rfl

theorem replaceEach_cons_none (M : Char → Str → Option Nat) (f : Str → Str)
    (c : Char) (cs : Str) (h : M c cs = none) :
    replaceEach M f (c :: cs) = c :: replaceEach M f cs := by
  show replaceEachGo M f (c :: cs).length (c :: cs) = _
  simp only [List.length_cons, replaceEachGo, h]
  rfl

theorem replLitsGo_congr (M : Char → Str → Option Nat) (pfx : Str) :
    ∀ f1 f2 s m, s.length ≤ f1 → s.length ≤ f2 →
      replLitsGo M pfx f1 s m = replLitsGo M pfx f2 s m := by
  intro f1
  induction f1 with
  | zero =>
    intro f2 s m h1 _
    have hs : s = [] := List.length_eq_zero.mp (Nat.le_zero.mp h1)
    subst hs
    cases f2 <;> rfl
  | succ f1 ih =>
    intro f2 s m h1 h2
    cases s with
    | nil => cases f2 <;> rfl
    | cons c cs =>
      cases f2 with
      | zero => simp at h2
      | succ f2 =>
        simp only [List.length_cons, Nat.add_le_add_iff_right] at h1 h2
        cases h : M c cs with
        | some n =>
          simp only [replLitsGo, h]
          rw [ih f2 (cs.drop n) _
            (le_trans (by simp) h1)
            (le_trans (by simp) h2)]
        | none =>
          simp only [replLitsGo, h]
          rw [ih f2 cs m h1 h2]

theorem replLits_nil (M : Char → Str → Option Nat) (pfx : Str) (m : LitMap) :
    replLits M pfx [] m = ([], m) := rfl

theorem replLits_cons_some (M : Char → Str → Option Nat) (pfx : Str)
    (c : Char) (cs : Str) (m : LitMap) (n : Nat) (h : M c cs = some n) :
    replLits M pfx (c :: cs) m =
      (mkPh pfx m.length ++
        (replLits M pfx (cs.drop n) (mset m (mkPh pfx m.length) (c :: cs.take n))).1,
       (replLits M pfx (cs.drop n) (mset m (mkPh pfx m.length) (c :: cs.take n))).2) := by
  show replLitsGo M pfx (c :: cs).length (c :: cs) m = _
  simp only [List.length_cons, replLitsGo, h]
  rw [replLitsGo_congr M pfx cs.length (cs.drop n).length (cs.drop n) _
    (by simp) le_rfl]
  rfl

theorem replLits_cons_none (M : Char → Str → Option Nat) (pfx : Str)
    (c : Char) (cs : Str) (m : LitMap) (h : M c cs = none) :
    replLits M pfx (c :: cs) m =
      (c :: (replLits M pfx cs m).1, (replLits M pfx cs m).2) := by
  show replLitsGo M pfx (c :: cs).length (c :: cs) m = _
  simp only [List.length_cons, replLitsGo, h]
  rfl

theorem natCharsGo_congr :
    ∀ f1 f2 n, n < f1 → n < f2 → natCharsGo f1 n = natCharsGo f2 n := by
  intro f1
  induction f1 with
  | zero => intro f2 n h1 _; omega
  | succ f1 ih =>
    intro f2 n h1 h2
    cases f2 with
    | zero => omega
    | succ f2 =>
      simp only [natCharsGo]
      by_cases h : n < 10
      · simp [h]
      · simp only [if_neg h]
        rw [ih f2 (n / 10) (by omega) (by omega)]

theorem natChars_eq (n : Nat) :
    natChars n = if n < 10 then [Char.ofNat (48 + n)]
      else natChars (n / 10) ++ [Char.ofNat (48 + n % 10)] := by
  show natCharsGo (n + 1) n = _
  simp only [natCharsGo]
  by_cases h : n < 10
  · simp [h]
  · simp only [if_neg h]
    rw [natCharsGo_congr n (n / 10 + 1) (n / 10) (by omega) (by omega)]
    rfl

/-! ## Clean-segment lemmas: characters that can never start a match pass
through a scan unchanged. -/

theorem replaceEach_append (M : Char → Str → Option Nat) (f : Str → Str)
    (xs ys : Str) (h : ∀ c ∈ xs, ∀ cs, M c cs = none) :
    replaceEach M f (xs ++ ys) = xs ++ replaceEach M f ys := by
  induction xs with
  | nil => rfl
  | cons c xs ih =>
    have hc : M c (xs ++ ys) = none := h c (by simp) _
    rw [List.cons_append, replaceEach_cons_none M f c (xs ++ ys) hc,
      ih (fun d hd cs => h d (by simp [hd]) cs)]
    rfl

theorem replaceEach_id (M : Char → Str → Option Nat) (f : Str → Str)
    (s : Str) (h : ∀ c ∈ s, ∀ cs, M c cs = none) :
    replaceEach M f s = s := by
  have := replaceEach_append M f s [] h
  simpa [replaceEach_nil] using this

theorem replLits_append (M : Char → Str → Option Nat) (pfx : Str)
    (xs ys : Str) (m : LitMap) (h : ∀ c ∈ xs, ∀ cs, M c cs = none) :
    replLits M pfx (xs ++ ys) m =
      (xs ++ (replLits M pfx ys m).1, (replLits M pfx ys m).2) := by
  induction xs with
  | nil => rfl
  | cons c xs ih =>
    have hc : M c (xs ++ ys) = none := h c (by simp) _
    rw [List.cons_append, replLits_cons_none M pfx c (xs ++ ys) m hc,
      ih (fun d hd cs => h d (by simp [hd]) cs)]
    rfl

theorem replLits_id (M : Char → Str → Option Nat) (pfx : Str)
    (s : Str) (m : LitMap) (h : ∀ c ∈ s, ∀ cs, M c cs = none) :
    replLits M pfx s m = (s, m) := by
  have := replLits_append M pfx s [] m h
  simpa [replLits_nil] using this

/-! ## Matcher trigger characters -/

theorem matchJsStr_none (c : Char) (cs : Str)
    (h : c ≠ '\'' ∧ c ≠ '"' ∧ c ≠ btick) : matchJsStr c cs = none := by
  simp [matchJsStr, h.1, h.2.1, h.2.2]

theorem matchPyStr_none (c : Char) (cs : Str)
    (h : c ≠ '\'' ∧ c ≠ '"') : matchPyStr c cs = none := by
  simp [matchPyStr, h.1, h.2]

theorem matchJsRegex_none (c : Char) (cs : Str) (h : c ≠ '/') :
    matchJsRegex c cs = none := by simp [matchJsRegex, h]

theorem matchBlockComment_none (c : Char) (cs : Str) (h : c ≠ '/') :
    matchBlockComment c cs = none := by simp [matchBlockComment, h]

theorem matchJsLine_none (c : Char) (cs : Str) (h : c ≠ '/') :
    matchJsLine c cs = none := by simp [matchJsLine, h]

theorem matchPyLine_none (c : Char) (cs : Str) (h : c ≠ '#') :
    matchPyLine c cs = none := by simp [matchPyLine, h]

theorem phMatch_none (c : Char) (cs : Str) (h : c ≠ '_') :
    phMatch c cs = none := by simp [phMatch, h]

theorem matchPyLine_hash (cs : Str) :
    matchPyLine '#' cs = some (cs.takeWhile (fun d => !isLineTerm d)).length := by
  simp [matchPyLine]

/-! ## Helper facts about comment removal -/

theorem removeAll_pyLine_no_hash :
    ∀ N s, s.length ≤ N → ∀ c ∈ removeAll matchPyLine s, c ≠ '#' := by
  intro N
  induction N with
  | zero =>
    intro s h c hc
    have hs : s = [] := List.length_eq_zero.mp (Nat.le_zero.mp h)
    subst hs
    simp [removeAll, replaceEach_nil] at hc
  | succ N ih =>
    intro s h c hc
    cases s with
    | nil => simp [removeAll, replaceEach_nil] at hc
    | cons a as =>
      simp only [List.length_cons, Nat.add_le_add_iff_right] at h
      by_cases ha : a = '#'
      · subst ha
        simp only [removeAll] at hc
        rw [replaceEach_cons_some _ _ _ _ _ (matchPyLine_hash as)] at hc
        simp only [List.nil_append] at hc
        exact ih (as.drop _) (le_trans (by simp) h) c hc
      · simp only [removeAll] at hc
        rw [replaceEach_cons_none _ _ _ _ (matchPyLine_none a as ha)] at hc
        rcases List.mem_cons.mp hc with hca | hcm
        · subst hca; exact ha
        · exact ih as h c hcm

theorem mem_of_mem_removeAll (M : Char → Str → Option Nat) :
    ∀ N s, s.length ≤ N → ∀ c ∈ removeAll M s, c ∈ s := by
  intro N
  induction N with
  | zero =>
    intro s h c hc
    have hs : s = [] := List.length_eq_zero.mp (Nat.le_zero.mp h)
    subst hs
    simp [removeAll, replaceEach_nil] at hc
  | succ N ih =>
    intro s h c hc
    cases s with
    | nil => simp [removeAll, replaceEach_nil] at hc
    | cons a as =>
      simp only [List.length_cons, Nat.add_le_add_iff_right] at h
      cases hM : M a as with
      | some n =>
        simp only [removeAll] at hc
        rw [replaceEach_cons_some _ _ _ _ _ hM] at hc
        simp only [List.nil_append] at hc
        have := ih (as.drop n) (le_trans (by simp) h) c hc
        exact List.mem_cons_of_mem a (List.drop_subset n as this)
      | none =>
        simp only [removeAll] at hc
        rw [replaceEach_cons_none _ _ _ _ hM] at hc
        rcases List.mem_cons.mp hc with hca | hcm
        · exact hca ▸ List.mem_cons_self a as
        · exact List.mem_cons_of_mem a (ih as h c hcm)

theorem containsShape_false_of_no_underscore (s : Str)
    (h : ∀ c ∈ s, c ≠ '_') : containsShape s = false := by
  induction s with
  | nil => rfl
  | cons a as ih =>
    simp only [containsShape, existsMatch, phMatch_none a as (h a (by simp)),
      Option.isSome_none, Bool.false_or]
    exact ih (fun c hc => h c (by simp [hc]))

theorem replaceEach_id_of_not_existsMatch (M : Char → Str → Option Nat)
    (f : Str → Str) (s : Str) (h : existsMatch M s = false) :
    replaceEach M f s = s := by
  induction s with
  | nil => rfl
  | cons a as ih =>
    simp only [existsMatch, Bool.or_eq_false_iff] at h
    have hM : M a as = none := by
      cases hx : M a as with
      | some n => rw [hx] at h; simp at h
      | none => rfl
    rw [replaceEach_cons_none _ _ _ _ hM, ih h.2]

theorem matchHtmlComment_isSome_leads (a : Char) (as : Str)
    (h : (matchHtmlComment a as).isSome = true) :
    leads (("<!--").data) (a :: as) = true := by
  simp only [matchHtmlComment] at h
  split at h
  · rename_i ha
    split at h
    · subst ha
      simp [leads]
    · simp at h
  · simp at h

theorem existsMatch_html_of_hasSub (t : Str)
    (h : hasSub (("<!--").data) t = false) :
    existsMatch matchHtmlComment t = false := by
  induction t with
  | nil => rfl
  | cons a as ih =>
    simp only [hasSub, Bool.or_eq_false_iff] at h
    simp only [existsMatch, Bool.or_eq_false_iff]
    constructor
    · by_cases hx : (matchHtmlComment a as).isSome = true
      · rw [matchHtmlComment_isSome_leads a as hx] at h
        exact absurd h.1 (by simp)
      · simpa using hx
    · exact ih h.2

/-! ## Claims -/

/-- C1 counterexample. The input `a/b /* c */` contains the well-formed
block comment `/* c */` outside any literal (the two slashes are division
operators), yet `stripJsComments` returns the input unchanged: the
regex-literal pattern spuriously matches `/b /`, hiding the `/*` opener
from the comment pass, so the comment text survives in the output. -/
theorem c1_counterexample :
    stripJsComments (("a/b /* c */").data) = ("a/b /* c */").data ∧
    hasSub (("/* c */").data) (stripJsComments (("a/b /* c */").data)) = true := by
  constructor
  · decide
  · decide

/-- C2 counterexample. The input contains the string literal `"a // b"`
(whose content contains the comment-introducing `//`), but the quotes of
`don't` and `can't` inside the surrounding comments make the string pass
extract the bogus span `'t */ x = "a // b" /* can'`; the remaining text is
one block comment and is deleted entirely, so the literal's content does
not appear in the output. -/
theorem c2_counterexample :
    stripJsComments (("/* don't */ x = \"a // b\" /* can't */").data) = [] ∧
    hasSub (("\"a // b\"").data)
      (("/* don't */ x = \"a // b\" /* can't */").data) = true ∧
    hasSub (("a // b").data)
      (stripJsComments (("/* don't */ x = \"a // b\" /* can't */").data)) = false := by
  refine ⟨by decide, by decide, by decide⟩

/-- C3 counterexample. Removing the leftmost lazy match `<!-- x -->` from
`<!<!-- x -->-- y -->` splices the remains into the fresh comment
`<!-- y -->`, which a second pass removes: `stripHtmlComments` is not
idempotent. -/
theorem c3_counterexample :
    stripHtmlComments (stripHtmlComments (("<!<!-- x -->-- y -->").data)) ≠
      stripHtmlComments (("<!<!-- x -->-- y -->").data) := by
  decide

/-- C4 counterexample. The input `/a'b'c/` contains no placeholder-shaped
substring, yet the string pass extracts `'b'` as `__STR_0__`, the regex
pass then extracts the whole `/a__STR_0__c/` span, and the single
non-rescanning restore pass re-emits that span verbatim — so the final
output contains the placeholder token `__STR_0__`. -/
theorem c4_counterexample :
    containsShape (("/a'b'c/").data) = false ∧
    stripJsComments (("/a'b'c/").data) = ("/a__STR_0__c/").data ∧
    containsShape (stripJsComments (("/a'b'c/").data)) = true := by
  refine ⟨by decide, by decide, by decide⟩

/-- C5 counterexample. `stripHtmlComments` and `stripCssComments` have no
input guard: called with `undefined` they invoke `undefined.replace` and
throw a `TypeError` instead of returning the empty string. -/
theorem c5_counterexample :
    stripHtmlCommentsOpt none = Except.error () ∧
    stripCssCommentsOpt none = Except.error () := by
  exact ⟨rfl, rfl⟩

/-- C7 counterexample. `stripVueComments` does equal the HTML pass applied
after the JS pass, but `stripJsComments` restores literals before
returning, so the HTML pass acts on restored literal text: the
HTML-comment-like sequence inside the JS string literal `"<!-- k -->"` is
deleted, not preserved. -/
theorem c7_counterexample :
    stripVueComments (("a = \"<!-- k -->\";").data) = ("a = \"\";").data ∧
    hasSub (("<!-- k -->").data)
      (stripVueComments (("a = \"<!-- k -->\";").data)) = false := by
  refine ⟨by decide, by decide⟩

/-- C10: restoration replaces every placeholder-shaped substring via one
global pass, including tokens already present verbatim in the source. The
input `__STR_0__ x = 'a'` contains no comment at all (no `//`, `/*` or
line-comment marker), yet `stripJsComments` rewrites the pre-existing
`__STR_0__` occurrence to the extracted literal `'a'`, so the output
differs from the input. -/
theorem c10_restore_rewrites_preexisting_token :
    stripJsComments (("__STR_0__ x = 'a'").data) = ("'a' x = 'a'").data ∧
    ("__STR_0__ x = 'a'").data ≠ ("'a' x = 'a'").data ∧
    hasSub (("//").data) (("__STR_0__ x = 'a'").data) = false ∧
    hasSub (("/*").data) (("__STR_0__ x = 'a'").data) = false := by
  refine ⟨by decide, by decide, by decide, by decide⟩

/-- C1, amended: comment-removal completeness fails for `stripJsComments`
when slashes in code trigger the regex-literal heuristic (see the
counterexample); for a pipeline without slash-delimited literals it holds
in the following form: on input containing no quote characters,
`stripPythonComments` leaves no `#` character in its output at all, so no
line-comment text can appear there. -/
theorem c1_comment_removal_amended (s : Str)
    (h : ∀ c ∈ s, c ≠ '\'' ∧ c ≠ '"') :
    ∀ c ∈ stripPythonComments s, c ≠ '#' := by
  by_cases hs : s = []
  · subst hs
    intro c hc
    simp [stripPythonComments] at hc
  · have e : stripPythonComments s = removeAll matchPyLine s := by
      simp only [stripPythonComments, if_neg hs]
      rw [replLits_id matchPyStr _ s []
        (fun d hd cs => matchPyStr_none d cs ⟨(h d hd).1, (h d hd).2⟩)]
      rfl
    rw [e]
    exact removeAll_pyLine_no_hash s.length s le_rfl

/-- Witness for the amended C1 at the concrete input `# a\nb`. -/
theorem c1_comment_removal_amended_witness :
    (∀ c ∈ ("# a\nb").data, c ≠ '\'' ∧ c ≠ '"') ∧
    (∀ c ∈ stripPythonComments (("# a\nb").data), c ≠ '#') :=
  ⟨by decide, c1_comment_removal_amended (("# a\nb").data) (by decide)⟩

/-- C3, amended: stripping is idempotent whenever one pass leaves no
comment opener: if `stripHtmlComments x` contains no `<!--` substring, a
second application of `stripHtmlComments` changes nothing. (In general a
removal can splice the surrounding text into a fresh comment, see the
counterexample.) -/
theorem c3_idempotence_amended (x : Str)
    (h : hasSub (("<!--").data) (stripHtmlComments x) = false) :
    stripHtmlComments (stripHtmlComments x) = stripHtmlComments x :=
  replaceEach_id_of_not_existsMatch matchHtmlComment _ _
    (existsMatch_html_of_hasSub _ h)

/-- Witness for the amended C3 at the concrete input `<!-- a -->z`. -/
theorem c3_idempotence_amended_witness :
    hasSub (("<!--").data) (stripHtmlComments (("<!-- a -->z").data)) = false ∧
    stripHtmlComments (stripHtmlComments (("<!-- a -->z").data)) =
      stripHtmlComments (("<!-- a -->z").data) :=
  ⟨by decide, c3_idempotence_amended (("<!-- a -->z").data) (by decide)⟩

/-- C4, amended: placeholder-free inputs are not enough (nested extraction
can leak a placeholder, see the counterexample); the guarantee holds in
this form: on input containing no quote and no underscore characters,
`stripPythonComments` produces output with no placeholder-shaped
substring. -/
theorem c4_placeholder_safety_amended (s : Str)
    (hq : ∀ c ∈ s, c ≠ '\'' ∧ c ≠ '"') (hu : ∀ c ∈ s, c ≠ '_') :
    containsShape (stripPythonComments s) = false := by
  by_cases hs : s = []
  · subst hs; decide
  · have e : stripPythonComments s = removeAll matchPyLine s := by
      simp only [stripPythonComments, if_neg hs]
      rw [replLits_id matchPyStr _ s []
        (fun d hd cs => matchPyStr_none d cs ⟨(hq d hd).1, (hq d hd).2⟩)]
      rfl
    rw [e]
    apply containsShape_false_of_no_underscore
    intro c hc
    exact hu c (mem_of_mem_removeAll matchPyLine s.length s le_rfl c hc)

/-- Witness for the amended C4 at the concrete input `a = 1 # note`. -/
theorem c4_placeholder_safety_amended_witness :
    (∀ c ∈ ("a = 1 # note").data, c ≠ '\'' ∧ c ≠ '"') ∧
    (∀ c ∈ ("a = 1 # note").data, c ≠ '_') ∧
    containsShape (stripPythonComments (("a = 1 # note").data)) = false :=
  ⟨by decide, by decide,
    c4_placeholder_safety_amended (("a = 1 # note").data) (by decide) (by decide)⟩

/-- A well-formed cache lookup only ever returns the switch resolution. -/
theorem mget_wf (cache : FnCache) (h : CacheWf cache) (k : Str) (fn : StripFn)
    (hm : mget cache k = some fn) : fn = resolveFn k := by
  simp only [mget, Option.map_eq_some'] at hm
  obtain ⟨p, hp, hpv⟩ := hm
  have hmem : p ∈ cache := List.mem_of_find?_eq_some hp
  have hkey : p.1 = k := by
    have := List.find?_some hp
    simpa using this
  rw [← hpv, h p hmem, hkey]

/-- Populating the cache with a switch resolution preserves the cache
invariant. -/
theorem cacheWf_mset (cache : FnCache) (h : CacheWf cache) (k : Str) :
    CacheWf (mset cache k (resolveFn k)) := by
  intro p hp
  simp only [mset] at hp
  split at hp
  · rcases List.mem_map.mp hp with ⟨q, hq, hqe⟩
    by_cases hqk : (q.1 == k) = true
    · rw [if_pos hqk] at hqe
      have : q.1 = k := by simpa using hqk
      rw [← hqe]
      simp [this]
    · rw [if_neg hqk] at hqe
      rw [← hqe]
      exact h q hq
  · rcases List.mem_append.mp hp with hq | hq
    · exact h p hq
    · simp at hq
      rw [hq]

/-- On a well-formed cache the dispatcher output is a pure function of the
path and the code. -/
theorem stripByFileTypeC_pure (cache : FnCache) (h : CacheWf cache)
    (p code : Str) :
    (stripCommentsByFileTypeC cache p code).1 =
      if code = [] then [] else (resolveFn (extOf p)).apply code := by
  by_cases hc : code = []
  · simp [stripCommentsByFileTypeC, hc]
  · simp only [stripCommentsByFileTypeC, if_neg hc]
    cases hm : mget cache (extOf p) with
    | some fn => simp only [hm]; simp [mget_wf cache h _ fn hm]
    | none => simp only [hm]

/-- C5, amended: every entry point returns the empty string on empty
input, and the guarded entry points (`stripComments`,
`stripCommentsByFileType`, `stripJsComments`, `stripPythonComments`,
`stripRubyComments`, `stripPhpComments`) as well as `stripVueComments`
(whose first step is guarded) also return it on an undefined argument —
but `stripHtmlComments` and `stripCssComments`, which have no guard,
throw a `TypeError` on an undefined argument. -/
theorem c5_empty_undefined_amended :
    stripJsCommentsOpt none = Except.ok [] ∧
    stripPythonCommentsOpt none = Except.ok [] ∧
    stripRubyCommentsOpt none = Except.ok [] ∧
    stripPhpCommentsOpt none = Except.ok [] ∧
    stripVueCommentsOpt none = Except.ok [] ∧
    stripHtmlCommentsOpt none = Except.error () ∧
    stripCssCommentsOpt none = Except.error () ∧
    stripJsComments [] = [] ∧
    stripPythonComments [] = [] ∧
    stripRubyComments [] = [] ∧
    stripPhpComments [] = [] ∧
    stripCStyleComments [] = [] ∧
    stripHtmlComments [] = [] ∧
    stripCssComments [] = [] ∧
    stripVueComments [] = [] ∧
    (∀ ft cache, (stripComments [] ft cache).1 = []) ∧
    (∀ cache path, (stripCommentsByFileTypeC cache path []).1 = []) ∧
    (∀ ft cache, stripCommentsOpt none ft cache = Except.ok ([], cache)) ∧
    (∀ cache path, stripCommentsByFileTypeOpt cache path none =
      Except.ok ([], cache)) := by
  refine ⟨rfl, rfl, rfl, rfl, rfl, rfl, rfl, by decide, by decide, by decide,
    by decide, by decide, rfl, rfl, by decide, ?_, ?_, ?_, ?_⟩
  · intro ft cache; simp [stripComments]
  · intro cache path; simp [stripCommentsByFileTypeC]
  · intro ft cache; rfl
  · intro cache path; rfl

/-- C6: for every file path whose lowercased final extension is not one of
the seventeen recognised extensions, and every code string,
`stripCommentsByFileType` (on any well-formed cache state) returns exactly
`stripJsComments code` — the documented fallback to the C-style/JS
pipeline. -/
theorem c6_unknown_extension_fallback (cache : FnCache) (filePath code : Str)
    (hw : CacheWf cache)
    (h : extOf filePath ∉ [("js").data, ("ts").data, ("jsx").data,
      ("tsx").data, ("java").data, ("c").data, ("cpp").data, ("cs").data,
      ("vue").data, ("html").data, ("htm").data, ("css").data, ("scss").data,
      ("less").data, ("py").data, ("rb").data, ("php").data]) :
    (stripCommentsByFileTypeC cache filePath code).1 = stripJsComments code := by
  have hres : resolveFn (extOf filePath) = StripFn.js := by
    simp only [resolveFn]
    split_ifs with h1 h2 h3 h4 h5 h6 h7
    · rfl
    · exact absurd (by rw [h2]; simp) h
    · exact absurd (by rcases h3 with e | e <;> rw [e] <;> simp) h
    · exact absurd (by rcases h4 with e | e | e <;> rw [e] <;> simp) h
    · exact absurd (by rw [h5]; simp) h
    · exact absurd (by rw [h6]; simp) h
    · exact absurd (by rw [h7]; simp) h
    · rfl
  rw [stripByFileTypeC_pure cache hw filePath code, hres]
  by_cases hc : code = []
  · simp [hc, stripJsComments]
  · simp [hc, StripFn.apply]

/-- Witness for C6 at the unrecognised extension `xyz`. -/
theorem c6_unknown_extension_fallback_witness :
    CacheWf [] ∧
    extOf (("a.xyz").data) ∉ [("js").data, ("ts").data, ("jsx").data,
      ("tsx").data, ("java").data, ("c").data, ("cpp").data, ("cs").data,
      ("vue").data, ("html").data, ("htm").data, ("css").data, ("scss").data,
      ("less").data, ("py").data, ("rb").data, ("php").data] ∧
    (stripCommentsByFileTypeC [] (("a.xyz").data) (("q // r").data)).1 =
      stripJsComments (("q // r").data) :=
  ⟨by intro p hp; simp at hp, by decide,
    c6_unknown_extension_fallback [] (("a.xyz").data) (("q // r").data)
      (by intro p hp; simp at hp) (by decide)⟩

/-- C7, amended: for every input, `stripVueComments code` equals HTML
comment removal applied to `stripJsComments code` (this is the exact
composition the source performs). The further consequence claimed —
that HTML-comment-like sequences inside JS string literals are preserved —
is false, because `stripJsComments` restores its literals before the HTML
pass runs (see the counterexample). -/
theorem c7_vue_composition_amended : ∀ code : Str,
    stripVueComments code = removeAll matchHtmlComment (stripJsComments code) :=
  fun _ => rfl

/-- C9: on well-formed cache states the result of
`stripCommentsByFileType` does not depend on the cache (two runs with the
same path and code agree from any two reachable cache states), and a call
preserves cache well-formedness, so every reachable state is well-formed. -/
theorem c9_determinism (c1 c2 : FnCache) (p code : Str)
    (h1 : CacheWf c1) (h2 : CacheWf c2) :
    (stripCommentsByFileTypeC c1 p code).1 =
      (stripCommentsByFileTypeC c2 p code).1 ∧
    CacheWf (stripCommentsByFileTypeC c1 p code).2 := by
  constructor
  · rw [stripByFileTypeC_pure c1 h1, stripByFileTypeC_pure c2 h2]
  · by_cases hc : code = []
    · simpa [stripCommentsByFileTypeC, hc] using h1
    · simp only [stripCommentsByFileTypeC, if_neg hc]
      cases hm : mget c1 (extOf p) with
      | some fn => simp only [hm]; exact h1
      | none => simp only [hm]; exact cacheWf_mset c1 h1 (extOf p)

/-- Witness for C9 with the empty cache and a cache holding the `js`
resolution. -/
theorem c9_determinism_witness :
    CacheWf [] ∧ CacheWf [(("js").data, StripFn.js)] ∧
    ((stripCommentsByFileTypeC [] (("b.py").data) (("x = 1 # c").data)).1 =
      (stripCommentsByFileTypeC [(("js").data, StripFn.js)] (("b.py").data)
        (("x = 1 # c").data)).1 ∧
     CacheWf (stripCommentsByFileTypeC [] (("b.py").data)
        (("x = 1 # c").data)).2) :=
  ⟨by intro p hp; simp at hp,
   by intro p hp; simp at hp; rw [hp]; decide,
   c9_determinism [] [(("js").data, StripFn.js)] (("b.py").data)
     (("x = 1 # c").data) (by intro p hp; simp at hp)
     (by intro p hp; simp at hp; rw [hp]; decide)⟩

/-- The character of a digit below ten is a digit character. -/
theorem digit_char_isDigit (d : Nat) (h : d < 10) :
    isDigitCh (Char.ofNat (48 + d)) = true := by
  interval_cases d <;> decide

/-- Digit characters round-trip through `chVal`. -/
theorem chVal_digit (d : Nat) (h : d < 10) :
    chVal (Char.ofNat (48 + d)) = d := by
  interval_cases d <;> decide

/-- Every character of a decimal rendering is a digit character. -/
theorem natChars_digits (n : Nat) : ∀ c ∈ natChars n, isDigitCh c = true := by
  induction n using Nat.strong_induction_on with
  | _ n ih =>
    rw [natChars_eq]
    by_cases h : n < 10
    · simp only [if_pos h]
      intro c hc
      simp at hc
      subst hc
      exact digit_char_isDigit n h
    · simp only [if_neg h]
      intro c hc
      rcases List.mem_append.mp hc with hc | hc
      · exact ih (n / 10) (Nat.div_lt_self (by omega) (by omega)) c hc
      · simp at hc
        subst hc
        exact digit_char_isDigit (n % 10) (Nat.mod_lt _ (by omega))

theorem digitsVal_append (a : Str) (c : Char) :
    digitsVal (a ++ [c]) = digitsVal a * 10 + chVal c := by
  simp [digitsVal, List.foldl_append]

/-- Decimal renderings parse back to the rendered number. -/
theorem digitsVal_natChars (n : Nat) : digitsVal (natChars n) = n := by
  induction n using Nat.strong_induction_on with
  | _ n ih =>
    rw [natChars_eq]
    by_cases h : n < 10
    · simp only [if_pos h]
      simp [digitsVal, chVal_digit n h]
    · simp only [if_neg h]
      rw [digitsVal_append, ih (n / 10) (Nat.div_lt_self (by omega) (by omega)),
        chVal_digit (n % 10) (Nat.mod_lt _ (by omega))]
      omega

theorem natChars_inj (n1 n2 : Nat) (h : natChars n1 = natChars n2) : n1 = n2 := by
  rw [← digitsVal_natChars n1, ← digitsVal_natChars n2, h]

theorem append_cancel_of_eq (a b x : Str) (h : a ++ x = b ++ x) : a = b := by
  have hl : a.length = b.length := by
    have := congrArg List.length h
    simp at this
    omega
  exact (List.append_inj h hl).1

/-- Placeholders built from the engine's three prefixes determine their
ordinal. -/
theorem mkPh_ord_inj (p1 p2 : Str) (n1 n2 : Nat)
    (hp1 : p1 = ("STR").data ∨ p1 = ("REGEX").data ∨ p1 = ("HEREDOC").data)
    (hp2 : p2 = ("STR").data ∨ p2 = ("REGEX").data ∨ p2 = ("HEREDOC").data)
    (h : mkPh p1 n1 = mkPh p2 n2) : n1 = n2 := by
  have hSTR : ("STR").data = ['S', 'T', 'R'] := rfl
  have hREGEX : ("REGEX").data = ['R', 'E', 'G', 'E', 'X'] := rfl
  have hHD : ("HEREDOC").data = ['H', 'E', 'R', 'E', 'D', 'O', 'C'] := rfl
  rcases hp1 with e1 | e1 | e1 <;> rcases hp2 with e2 | e2 | e2 <;>
    subst e1 <;> subst e2 <;>
    simp only [mkPh, hSTR, hREGEX, hHD, List.cons_append, List.cons.injEq,
      List.nil_append, true_and] at h
  · exact natChars_inj n1 n2 (append_cancel_of_eq _ _ _ h)
  · simp at h
  · simp at h
  · simp at h
  · exact natChars_inj n1 n2 (append_cancel_of_eq _ _ _ h)
  · simp at h
  · simp at h
  · simp at h
  · exact natChars_inj n1 n2 (append_cancel_of_eq _ _ _ h)

/-- Adding the placeholder with ordinal `m.length` to a map satisfying the
invariant appends a fresh key and re-establishes the invariant. -/
theorem phInv_mset (m : LitMap) (pfx : Str)
    (hpfx : pfx = ("STR").data ∨ pfx = ("REGEX").data ∨ pfx = ("HEREDOC").data)
    (hm : PhInv m) (v : Str) :
    PhInv (mset m (mkPh pfx m.length) v) := by
  have hnot : ∀ p ∈ m, p.1 ≠ mkPh pfx m.length := by
    intro p hp heq
    obtain ⟨pf, n, hpf, hn, hkey⟩ := hm.2 p hp
    have := mkPh_ord_inj pf pfx n m.length hpf hpfx (hkey ▸ heq)
    omega
  have hany : (m.any (fun p => p.1 == mkPh pfx m.length)) = false := by
    rw [List.any_eq_false]
    intro p hp
    simpa using hnot p hp
  rw [mset, if_neg (by rw [hany]; exact Bool.false_ne_true)]
  constructor
  · rw [List.map_append]
    apply List.Nodup.append hm.1 (by simp)
    intro k hk1 hk2
    simp at hk2
    rcases List.mem_map.mp hk1 with ⟨p, hp, hpe⟩
    exact hnot p hp (hpe.symm ▸ hk2 ▸ rfl)
  · intro p hp
    rcases List.mem_append.mp hp with hp | hp
    · obtain ⟨pf, n, hpf, hn, hkey⟩ := hm.2 p hp
      exact ⟨pf, n, hpf, by simp; omega, hkey⟩
    · simp at hp
      exact ⟨pfx, m.length, hpfx, by simp, by rw [hp]⟩

/-- The literal-extraction scan preserves the placeholder-map invariant. -/
theorem replLitsGo_phInv (M : Char → Str → Option Nat) (pfx : Str)
    (hpfx : pfx = ("STR").data ∨ pfx = ("REGEX").data ∨ pfx = ("HEREDOC").data) :
    ∀ fuel s m, PhInv m → PhInv (replLitsGo M pfx fuel s m).2 := by
  intro fuel
  induction fuel with
  | zero => intro s m hm; exact hm
  | succ fuel ih =>
    intro s m hm
    cases s with
    | nil => exact hm
    | cons c cs =>
      cases h : M c cs with
      | some n =>
        simp only [replLitsGo, h]
        exact ih _ _ (phInv_mset m pfx hpfx hm _)
      | none =>
        simp only [replLitsGo, h]
        exact ih _ _ hm

/-- C8: within one stripping operation every generated placeholder is
distinct. The literal map built by the two extraction passes of
`stripJsComments` (string pass then regex pass) and of `stripRubyComments`
(string pass then heredoc pass) has pairwise-distinct keys: each pass
takes the ordinal from the shared map's current size, which grows by one
at every insertion, so ordinals increase monotonically across the passes
of one call. -/
theorem c8_placeholder_uniqueness (code : Str) :
    (((replLits matchJsRegex (("REGEX").data)
        (replLits matchJsStr (("STR").data) code []).1
        (replLits matchJsStr (("STR").data) code []).2).2).map Prod.fst).Nodup ∧
    (((replLits matchHeredoc (("HEREDOC").data)
        (replLits matchPyStr (("STR").data) code []).1
        (replLits matchPyStr (("STR").data) code []).2).2).map Prod.fst).Nodup := by
  have h0 : PhInv [] := ⟨List.nodup_nil, by intro p hp; simp at hp⟩
  constructor
  · exact (replLitsGo_phInv matchJsRegex _ (Or.inr (Or.inl rfl)) _ _ _
      (replLitsGo_phInv matchJsStr _ (Or.inl rfl) _ _ _ h0)).1
  · exact (replLitsGo_phInv matchHeredoc _ (Or.inr (Or.inr rfl)) _ _ _
      (replLitsGo_phInv matchPyStr _ (Or.inl rfl) _ _ _ h0)).1

/-- A string-literal body free of the quote and of backslashes is consumed
exactly up to the closing quote. -/
theorem strLitEnd_exact (qc : Char) (body rest : Str)
    (hb : ∀ c ∈ body, c ≠ qc ∧ c ≠ '\\') :
    strLitEnd qc (body ++ qc :: rest) = some (body.length + 1) := by
  induction body with
  | nil =>
    rw [strLitEnd.eq_def]
    simp
  | cons b bs ih =>
    have hb1 := hb b (by simp)
    rw [List.cons_append, strLitEnd.eq_def]
    simp only [if_neg hb1.1, if_neg hb1.2]
    rw [ih (fun c hc => hb c (by simp [hc]))]
    simp

/-- C2, amended: literal preservation fails when quotes inside comments
derail the string pass (see the counterexample); it holds when the
surrounding code introduces no other quote, slash or underscore: for every
prefix and suffix free of quote, backtick, slash and underscore
characters, and every literal body free of `"` and `\`, `stripJsComments`
returns the input unchanged, preserving the literal (which may contain
`//` or any other comment-introducing sequence) exactly. -/
theorem c2_literal_preservation_amended (p body q : Str)
    (hp : ∀ c ∈ p, c ≠ '\'' ∧ c ≠ '"' ∧ c ≠ btick ∧ c ≠ '/' ∧ c ≠ '_')
    (hq : ∀ c ∈ q, c ≠ '\'' ∧ c ≠ '"' ∧ c ≠ btick ∧ c ≠ '/' ∧ c ≠ '_')
    (hb : ∀ c ∈ body, c ≠ '"' ∧ c ≠ '\\') :
    stripJsComments (p ++ ['"'] ++ body ++ ['"'] ++ q) =
      p ++ ['"'] ++ body ++ ['"'] ++ q := by
  have hshape : p ++ ['"'] ++ body ++ ['"'] ++ q =
      p ++ ('"' :: (body ++ '"' :: q)) := by simp
  have hmatch : matchJsStr '"' (body ++ '"' :: q) = some (body.length + 1) :=
    strLitEnd_exact '"' body q hb
  have htake : (body ++ '"' :: q).take (body.length + 1) = body ++ ['"'] := by
    rw [show body ++ '"' :: q = (body ++ ['"']) ++ q by simp]
    rw [List.take_left' (by simp)]
  have hdrop : (body ++ '"' :: q).drop (body.length + 1) = q := by
    rw [show body ++ '"' :: q = (body ++ ['"']) ++ q by simp]
    rw [List.drop_left' (by simp)]
  have hcleanP1 : ∀ c ∈ p, ∀ cs, matchJsStr c cs = none :=
    fun c hc cs =>
      matchJsStr_none c cs ⟨(hp c hc).1, (hp c hc).2.1, (hp c hc).2.2.1⟩
  have hcleanQ1 : ∀ c ∈ q, ∀ cs, matchJsStr c cs = none :=
    fun c hc cs =>
      matchJsStr_none c cs ⟨(hq c hc).1, (hq c hc).2.1, (hq c hc).2.2.1⟩
  have e1 : replLits matchJsStr (("STR").data) (p ++ ('"' :: (body ++ '"' :: q))) [] =
      (p ++ ((("__STR_0__").data) ++ q),
       [((("__STR_0__").data), '"' :: (body ++ ['"']))]) := by
    rw [replLits_append matchJsStr _ p _ [] hcleanP1]
    rw [replLits_cons_some matchJsStr _ '"' (body ++ '"' :: q) []
      (body.length + 1) hmatch]
    rw [hdrop, htake]
    rw [replLits_id matchJsStr _ q _ hcleanQ1]
    rfl
  have hmidSlash : ∀ c ∈ (("__STR_0__").data : Str), c ≠ '/' := by decide
  have hnoSlash : ∀ c ∈ p ++ ((("__STR_0__").data) ++ q), c ≠ '/' := by
    intro c hc
    rcases List.mem_append.mp hc with h | h
    · exact (hp c h).2.2.2.1
    · rcases List.mem_append.mp h with h | h
      · exact hmidSlash c h
      · exact (hq c h).2.2.2.1
  have e2 : replLits matchJsRegex (("REGEX").data)
      (p ++ ((("__STR_0__").data) ++ q))
      [((("__STR_0__").data), '"' :: (body ++ ['"']))] =
      (p ++ ((("__STR_0__").data) ++ q),
       [((("__STR_0__").data), '"' :: (body ++ ['"']))]) :=
    replLits_id _ _ _ _ (fun c hc cs => matchJsRegex_none c cs (hnoSlash c hc))
  have e3 : removeAll matchBlockComment (p ++ ((("__STR_0__").data) ++ q)) =
      p ++ ((("__STR_0__").data) ++ q) :=
    replaceEach_id _ _ _ (fun c hc cs => matchBlockComment_none c cs (hnoSlash c hc))
  have e4 : removeAll matchJsLine (p ++ ((("__STR_0__").data) ++ q)) =
      p ++ ((("__STR_0__").data) ++ q) :=
    replaceEach_id _ _ _ (fun c hc cs => matchJsLine_none c cs (hnoSlash c hc))
  have hph8 : phMatch '_' ((("_STR_0__").data) ++ q) = some 8 := rfl
  have hrest : restoreLiterals (p ++ ((("__STR_0__").data) ++ q))
      [((("__STR_0__").data), '"' :: (body ++ ['"']))] =
      p ++ ('"' :: (body ++ '"' :: q)) := by
    simp only [restoreLiterals, List.length_cons, List.length_nil]
    rw [if_neg (by omega)]
    rw [replaceEach_append phMatch _ p _
      (fun c hc cs => phMatch_none c cs (hp c hc).2.2.2.2)]
    rw [show ((("__STR_0__").data) : Str) ++ q =
      '_' :: ((("_STR_0__").data) ++ q) from rfl]
    rw [replaceEach_cons_some phMatch _ '_' ((("_STR_0__").data) ++ q) 8 hph8]
    rw [show (((("_STR_0__").data) : Str) ++ q).drop 8 = q from rfl]
    rw [replaceEach_id phMatch _ q
      (fun c hc cs => phMatch_none c cs (hq c hc).2.2.2.2)]
    show p ++ (('"' :: (body ++ ['"'])) ++ q) = _
    simp
  rw [hshape]
  have hne : p ++ ('"' :: (body ++ '"' :: q)) ≠ [] := by simp
  simp only [stripJsComments, if_neg hne, e1]
  simp only [e2, e3, e4, hrest]

/-- Witness for the amended C2 at the concrete input `x = "a // b";`. -/
theorem c2_literal_preservation_amended_witness :
    (∀ c ∈ ("x = ").data, c ≠ '\'' ∧ c ≠ '"' ∧ c ≠ btick ∧ c ≠ '/' ∧ c ≠ '_') ∧
    (∀ c ∈ (";").data, c ≠ '\'' ∧ c ≠ '"' ∧ c ≠ btick ∧ c ≠ '/' ∧ c ≠ '_') ∧
    (∀ c ∈ ("a // b").data, c ≠ '"' ∧ c ≠ '\\') ∧
    stripJsComments (("x = \"a // b\";").data) = ("x = \"a // b\";").data := by
  refine ⟨by decide, by decide, by decide, ?_⟩
  have h := c2_literal_preservation_amended (("x = ").data) (("a // b").data)
    ((";").data) (by decide) (by decide) (by decide)
  have e : ("x = ").data ++ ['"'] ++ ("a // b").data ++ ['"'] ++ ((";").data) =
      ("x = \"a // b\";").data := by decide
  rw [e] at h
  exact h
